import Mathlib

/-!
Shallow embedding of the weasel repository (src/src/main.rs, src/src/weasel.rs).

Strings are modelled as lists of characters, as sanctioned by the design notes
(all helpers operate directly on character sequences).  Randomness is made
explicit: every random draw is read from an oracle function supplied as an
argument, so theorems quantify over all possible random behaviours.
- The rand `choose` over the character iterator is modelled by an arbitrary
  index `k` reduced modulo the set size (`none` exactly when the set is empty).
- `rng.gen_range(0..=100)` is modelled by an arbitrary natural reduced mod 101.
Fallible Rust functions returning `Result<_, Box<dyn Error>>` become `Except`.
-/

/-- Record of validated CLI arguments, from `WeaselArgs` in src/src/main.rs.
The target phrase, approved character set, trials per generation, and
mutation rate. -/
structure WeaselArgs where
  phrase : List Char
  char_set : List Char
  iterations : Nat
  mutation_rate : Nat

/-- The two sampling-failure sites in src/src/weasel.rs.  The source carries
them as boxed string errors ("Could not pick character from char set when
generating random string" and "Could not get random character to mutate
string", modulo contraction); the spec calls both `EmptyCharsetError`. -/
inductive WeaselErr where
  | genRandEmptyCharset
  | mutateEmptyCharset
  deriving DecidableEq, Repr

/-- Model of `char_set.chars().choose(&mut rng)`: an oracle value `k` selects
the `k % length`-th character.  Returns `none` exactly when the set is empty
(for an empty list `k % 0 = k` and the lookup is out of range). -/
def choose_char (l : List Char) (k : Nat) : Option Char :=
  l[k % l.length]?

/-- `check_equal_chars` from src/src/weasel.rs lines 165-174: zip the two
character sequences, keep the positions where the characters agree, count. -/
def check_equal_chars (string_a string_b : List Char) : Nat :=
  ((string_a.zip string_b).filter (fun p => p.1 == p.2)).length

/-- The character-producing loop of `gen_rand_string` (src/src/weasel.rs lines
81-88).  `i` is the position index into the pick oracle, `n` the number of
characters still to produce; each step draws one character from the set or
fails if the set is empty. -/
def gen_rand_string_aux (char_set : List Char) (picks : Nat → Nat) :
    Nat → Nat → Except WeaselErr (List Char)
  | _, 0 => .ok []
  | i, n + 1 =>
    match choose_char char_set (picks i) with
    | none => .error .genRandEmptyCharset
    | some c => (gen_rand_string_aux char_set picks (i + 1) n).map (c :: ·)

/-- `gen_rand_string` from src/src/weasel.rs lines 73-91. -/
def gen_rand_string (str_len : Nat) (char_set : List Char) (picks : Nat → Nat) :
    Except WeaselErr (List Char) :=
  gen_rand_string_aux char_set picks 0 str_len

/-- The per-character loop of `get_mutated_string` (src/src/weasel.rs lines
122-139).  For each character of the base string, a roll in [0,100] is drawn;
if it is at most the mutation rate, a random character from the set replaces
the original (failing when the set is empty), otherwise the original character
is copied. -/
def get_mutated_string_aux (mutation_rate : Nat) (char_set : List Char)
    (rolls picks : Nat → Nat) : Nat → List Char → Except WeaselErr (List Char)
  | _, [] => .ok []
  | i, c :: cs =>
    if rolls i % 101 ≤ mutation_rate then
      match choose_char char_set (picks i) with
      | none => .error .mutateEmptyCharset
      | some ch =>
        (get_mutated_string_aux mutation_rate char_set rolls picks (i + 1) cs).map (ch :: ·)
    else
      (get_mutated_string_aux mutation_rate char_set rolls picks (i + 1) cs).map (c :: ·)

/-- `get_mutated_string` from src/src/weasel.rs lines 111-142. -/
def get_mutated_string (mutation_rate : Nat) (base_str char_set : List Char)
    (rolls picks : Nat → Nat) : Except WeaselErr (List Char) :=
  get_mutated_string_aux mutation_rate char_set rolls picks 0 base_str

/-- Claim C5: the fitness scorer returns the count of positions where the two
sequences have equal characters, iterating only up to the shorter length, with
exact character equality and no error on length mismatch; and the four
concrete values from the spec hold. -/
theorem check_equal_chars_spec :
    (∀ a b : List Char,
      check_equal_chars a b =
        (List.range (min a.length b.length)).countP (fun i => a[i]? == b[i]?)) ∧
    check_equal_chars "FOO".toList "OOF".toList = 1 ∧
    check_equal_chars "FOOBAR".toList "FOO".toList = 3 ∧
    check_equal_chars "ABC".toList "ABC".toList = 3 ∧
    check_equal_chars "".toList "ABC".toList = 0 := by
  refine ⟨?_, by decide, by decide, by decide, by decide⟩
  intro a
  induction a with
  | nil => intro b; simp [check_equal_chars]
  | cons x xs ih =>
    intro b
    cases b with
    | nil => simp [check_equal_chars]
    | cons y ys =>
      have h := ih ys
      simp only [check_equal_chars, List.zip_cons_cons, List.length_cons] at h ⊢
      rw [Nat.succ_min_succ, List.range_succ_eq_map, List.countP_cons,
        List.countP_map]
      by_cases hxy : x = y
      · simp [hxy, List.filter_cons, h, Function.comp_def, Nat.add_comm]
      · simp [hxy, List.filter_cons, h, Function.comp_def]

/-- Mapping an `Except` gives `.ok` exactly when the original did. -/
theorem except_map_ok {ε α β : Type} (f : α → β) (e : Except ε α) (y : β) :
    e.map f = .ok y ↔ ∃ x, e = .ok x ∧ y = f x := by
  cases e <;> simp [Except.map, eq_comm]

/-- Mapping an `Except` keeps its error unchanged. -/
theorem except_map_err {ε α β : Type} (f : α → β) (e : Except ε α) (err : ε) :
    e.map f = .error err ↔ e = .error err := by
  cases e <;> simp [Except.map]

/-- On a non-empty character list the modelled choose always returns a member. -/
theorem choose_char_nonempty (l : List Char) (hl : l ≠ []) (k : Nat) :
    ∃ c, choose_char l k = some c ∧ c ∈ l := by
  have hlen : 0 < l.length := List.length_pos.mpr hl
  have hk : k % l.length < l.length := Nat.mod_lt _ hlen
  exact ⟨l[k % l.length], by simp [choose_char, List.getElem?_eq_getElem hk],
    List.getElem_mem hk⟩

/-- The modelled choose returns none exactly on the empty character list. -/
theorem choose_char_eq_none (l : List Char) (k : Nat) :
    choose_char l k = none ↔ l = [] := by
  constructor
  · intro h
    by_contra hne
    obtain ⟨c, hc, -⟩ := choose_char_nonempty l hne k
    rw [h] at hc
    exact Option.noConfusion hc
  · intro h
    subst h
    simp [choose_char]

/-- Characterisation of the mutator loop at any starting position: on success
the output has the length of the input, and each position is the chosen
character when its roll triggered a mutation, the original character
otherwise. -/
theorem get_mutated_string_aux_spec (mutation_rate : Nat) (char_set : List Char)
    (rolls picks : Nat → Nat) :
    ∀ (cs : List Char) (i : Nat) (res : List Char),
      get_mutated_string_aux mutation_rate char_set rolls picks i cs = .ok res →
      res.length = cs.length ∧
      ∀ j, j < cs.length →
        res[j]? = if rolls (i + j) % 101 ≤ mutation_rate
          then choose_char char_set (picks (i + j)) else cs[j]? := by
  intro cs
  induction cs with
  | nil =>
    intro i res h
    simp only [get_mutated_string_aux] at h
    cases h
    simp
  | cons c cs ih =>
    intro i res h
    simp only [get_mutated_string_aux] at h
    by_cases hroll : rolls i % 101 ≤ mutation_rate
    · rw [if_pos hroll] at h
      cases hcc : choose_char char_set (picks i) with
      | none => rw [hcc] at h; exact absurd h (by simp)
      | some ch =>
        rw [hcc] at h
        obtain ⟨rest, hrest, rfl⟩ := (except_map_ok _ _ _).mp h
        obtain ⟨hlen, hidx⟩ := ih (i + 1) rest hrest
        refine ⟨by simp [hlen], ?_⟩
        intro j hj
        cases j with
        | zero => simpa [hroll] using hcc.symm
        | succ j =>
          have hj' : j < cs.length := by simpa using hj
          have := hidx j hj'
          have harith : i + 1 + j = i + (j + 1) := by omega
          rw [harith] at this
          simpa using this
    · rw [if_neg hroll] at h
      obtain ⟨rest, hrest, rfl⟩ := (except_map_ok _ _ _).mp h
      obtain ⟨hlen, hidx⟩ := ih (i + 1) rest hrest
      refine ⟨by simp [hlen], ?_⟩
      intro j hj
      cases j with
      | zero => simp [hroll]
      | succ j =>
        have hj' : j < cs.length := by simpa using hj
        have := hidx j hj'
        have harith : i + 1 + j = i + (j + 1) := by omega
        rw [harith] at this
        simpa using this

/-- Claim C4: whenever the mutator succeeds, its output has the length of the
base string, and each output character is, independently per position, the
chosen character from the set when the draw in [0,100] is at most the rate,
and the original character otherwise. -/
theorem get_mutated_string_spec (mutation_rate : Nat)
    (base_str char_set : List Char) (rolls picks : Nat → Nat) (res : List Char)
    (h : get_mutated_string mutation_rate base_str char_set rolls picks = .ok res) :
    res.length = base_str.length ∧
    ∀ j, j < base_str.length →
      res[j]? = if rolls j % 101 ≤ mutation_rate
        then choose_char char_set (picks j) else base_str[j]? := by
  obtain ⟨hlen, hidx⟩ :=
    get_mutated_string_aux_spec mutation_rate char_set rolls picks base_str 0 res h
  exact ⟨hlen, fun j hj => by simpa using hidx j hj⟩

/-- Witness for claim C4 at rate 100, base AB, set XY, all draws 0. -/
theorem get_mutated_string_spec_witness :
    (['X', 'X'] : List Char).length = (['A', 'B'] : List Char).length ∧
    ∀ j, j < (['A', 'B'] : List Char).length →
      (['X', 'X'] : List Char)[j]? = if (fun _ => 0 : Nat → Nat) j % 101 ≤ 100
        then choose_char ['X', 'Y'] ((fun _ => 0 : Nat → Nat) j)
        else (['A', 'B'] : List Char)[j]? :=
  get_mutated_string_spec 100 ['A', 'B'] ['X', 'Y'] (fun _ => 0) (fun _ => 0)
    ['X', 'X'] (by rfl)

/-- The generator loop at any starting position: with a non-empty character
set it succeeds, producing exactly `n` characters, all members of the set. -/
theorem gen_rand_string_aux_spec (char_set : List Char) (picks : Nat → Nat)
    (hne : char_set ≠ []) :
    ∀ (n i : Nat), ∃ res, gen_rand_string_aux char_set picks i n = .ok res ∧
      res.length = n ∧ ∀ c ∈ res, c ∈ char_set := by
  intro n
  induction n with
  | zero => intro i; exact ⟨[], by simp [gen_rand_string_aux], by simp, by simp⟩
  | succ n ih =>
    intro i
    obtain ⟨c, hc, hcmem⟩ := choose_char_nonempty char_set hne (picks i)
    obtain ⟨res, hres, hlen, hmem⟩ := ih (i + 1)
    refine ⟨c :: res, ?_, by simp [hlen], ?_⟩
    · simp only [gen_rand_string_aux, hc, hres, Except.map]
    · intro x hx
      rcases List.mem_cons.mp hx with hx | hx
      · exact hx ▸ hcmem
      · exact hmem x hx

/-- Claim C6: for every non-empty character set and every requested length,
the random string generator succeeds with a string of exactly that length
whose characters all belong to the set. -/
theorem gen_rand_string_spec (str_len : Nat) (char_set : List Char)
    (picks : Nat → Nat) (hne : char_set ≠ []) :
    ∃ res, gen_rand_string str_len char_set picks = .ok res ∧
      res.length = str_len ∧ ∀ c ∈ res, c ∈ char_set :=
  gen_rand_string_aux_spec char_set picks hne str_len 0

/-- Witness for claim C6 at length 2 over the singleton set A. -/
theorem gen_rand_string_spec_witness :
    ∃ res, gen_rand_string 2 ['A'] (fun _ => 0) = .ok res ∧
      res.length = 2 ∧ ∀ c ∈ res, c ∈ (['A'] : List Char) :=
  gen_rand_string_spec 2 ['A'] (fun _ => 0) (by decide)

/-- Claim C7: with an empty character set and a positive requested length the
generator fails with the empty-charset sampling error. -/
theorem gen_rand_string_empty_charset (str_len : Nat) (picks : Nat → Nat)
    (h : 0 < str_len) :
    gen_rand_string str_len [] picks = .error .genRandEmptyCharset := by
  obtain ⟨n, rfl⟩ := Nat.exists_eq_succ_of_ne_zero (Nat.pos_iff_ne_zero.mp h)
  simp [gen_rand_string, gen_rand_string_aux, choose_char]

/-- Witness for claim C7 at length 1. -/
theorem gen_rand_string_empty_charset_witness :
    gen_rand_string 1 [] (fun _ => 0) = .error .genRandEmptyCharset :=
  gen_rand_string_empty_charset 1 (fun _ => 0) (by decide)

/-- The mutator loop errors exactly when the character set is empty and some
roll in range triggers a mutation. -/
theorem get_mutated_string_aux_err_iff (mutation_rate : Nat)
    (char_set : List Char) (rolls picks : Nat → Nat) :
    ∀ (cs : List Char) (i : Nat),
      (get_mutated_string_aux mutation_rate char_set rolls picks i cs =
        .error .mutateEmptyCharset) ↔
      (char_set = [] ∧ ∃ j, j < cs.length ∧ rolls (i + j) % 101 ≤ mutation_rate) := by
  intro cs
  induction cs with
  | nil =>
    intro i
    simp [get_mutated_string_aux]
  | cons c cs ih =>
    intro i
    simp only [get_mutated_string_aux]
    by_cases hroll : rolls i % 101 ≤ mutation_rate
    · rw [if_pos hroll]
      cases hcc : choose_char char_set (picks i) with
      | none =>
        have hcsempty : char_set = [] := (choose_char_eq_none _ _).mp hcc
        constructor
        · intro _
          exact ⟨hcsempty, 0, by simp, by simpa using hroll⟩
        · intro _
          rfl
      | some ch =>
        have hcsne : char_set ≠ [] := by
          intro hcs
          rw [(choose_char_eq_none char_set (picks i)).mpr hcs] at hcc
          exact Option.noConfusion hcc
        rw [except_map_err, ih (i + 1)]
        constructor
        · rintro ⟨hcs, -⟩; exact absurd hcs hcsne
        · rintro ⟨hcs, -⟩; exact absurd hcs hcsne
    · rw [if_neg hroll, except_map_err, ih (i + 1)]
      constructor
      · rintro ⟨hcs, j, hj, htrig⟩
        refine ⟨hcs, j + 1, by simpa using Nat.succ_lt_succ hj, ?_⟩
        have harith : i + 1 + j = i + (j + 1) := by omega
        rw [harith] at htrig
        exact htrig
      · rintro ⟨hcs, j, hj, htrig⟩
        cases j with
        | zero => exact absurd (by simpa using htrig) hroll
        | succ j =>
          refine ⟨hcs, j, by simpa using hj, ?_⟩
          have harith : i + 1 + j = i + (j + 1) := by omega
          rw [harith]
          exact htrig

/-- The mutator loop copies the base string unchanged when no roll triggers. -/
theorem get_mutated_string_aux_no_trigger (mutation_rate : Nat)
    (char_set : List Char) (rolls picks : Nat → Nat) :
    ∀ (cs : List Char) (i : Nat),
      (∀ j, j < cs.length → ¬(rolls (i + j) % 101 ≤ mutation_rate)) →
      get_mutated_string_aux mutation_rate char_set rolls picks i cs = .ok cs := by
  intro cs
  induction cs with
  | nil => intro i _; simp [get_mutated_string_aux]
  | cons c cs ih =>
    intro i hno
    have h0 : ¬(rolls i % 101 ≤ mutation_rate) := by
      simpa using hno 0 (by simp)
    have hrest : get_mutated_string_aux mutation_rate char_set rolls picks
        (i + 1) cs = .ok cs := by
      refine ih (i + 1) ?_
      intro j hj
      have harith : i + 1 + j = i + (j + 1) := by omega
      rw [harith]
      exact hno (j + 1) (by simpa using Nat.succ_lt_succ hj)
    simp [get_mutated_string_aux, if_neg h0, hrest, Except.map]

/-- Claim C8: the mutator fails with the empty-charset error exactly when the
character set is empty and at least one per-character draw triggers a
mutation; with an empty set and no triggering draw it succeeds and returns
the base string unchanged. -/
theorem get_mutated_string_err_iff (mutation_rate : Nat)
    (base_str char_set : List Char) (rolls picks : Nat → Nat) :
    ((get_mutated_string mutation_rate base_str char_set rolls picks =
        .error .mutateEmptyCharset) ↔
      (char_set = [] ∧ ∃ j, j < base_str.length ∧ rolls j % 101 ≤ mutation_rate)) ∧
    (char_set = [] → (∀ j, j < base_str.length → ¬(rolls j % 101 ≤ mutation_rate)) →
      get_mutated_string mutation_rate base_str char_set rolls picks = .ok base_str) := by
  constructor
  · have h := get_mutated_string_aux_err_iff mutation_rate char_set rolls picks base_str 0
    simpa [get_mutated_string] using h
  · intro hcs hno
    have h := get_mutated_string_aux_no_trigger mutation_rate char_set rolls picks base_str 0
      (by simpa using hno)
    simpa [get_mutated_string] using h

/-- The pair carried through the loop, from `struct Mutation(String, usize)` in
src/src/weasel.rs line 16: a candidate string (`.0`) and its score (`.1`). -/
structure Mutation where
  str : List Char
  score : Nat
  deriving DecidableEq, Repr

/-- Randomness consumed by one whole run: the picks for the initial random
string, and per (generation, trial, position) the mutation rolls and picks. -/
structure Oracle where
  initPick : Nat → Nat
  roll : Nat → Nat → Nat → Nat
  pick : Nat → Nat → Nat → Nat

/-- How a fuelled unrolling of the `while` loop in `run_weasel` ended:
converged (the Rust loop exits and the function returned Ok), fuel exhausted
with the loop still running, or a sampling error propagated by `?`. -/
inductive LoopStatus where
  | ok
  | outOfFuel (prev : Mutation)
  | err (e : WeaselErr)
  deriving DecidableEq, Repr

/-- The inner `for _ in 0..args.iterations` batch of `run_weasel`
(src/src/weasel.rs lines 38-52): `t` is the trial index into the oracle, `n`
the number of trials left.  Each trial mutates the PREVIOUS generation's best
(`base`), scores it against the phrase, and replaces the working best exactly
when its score is strictly greater. -/
def run_batch_aux (args : WeaselArgs) (base : List Char)
    (rolls picks : Nat → Nat → Nat) :
    Nat → Nat → Mutation → Except WeaselErr Mutation
  | _, 0, cur_best => .ok cur_best
  | t, n + 1, cur_best =>
    match get_mutated_string args.mutation_rate base args.char_set
        (rolls t) (picks t) with
    | .error e => .error e
    | .ok cur_str =>
      run_batch_aux args base rolls picks (t + 1) n
        (if check_equal_chars cur_str args.phrase > cur_best.score
          then ⟨cur_str, check_equal_chars cur_str args.phrase⟩ else cur_best)

/-- One generation's batch: all `args.iterations` trials starting from the
working best `prev_best` (a copy of the previous generation's best). -/
def run_batch (args : WeaselArgs) (prev_best : Mutation)
    (rolls picks : Nat → Nat → Nat) : Except WeaselErr Mutation :=
  run_batch_aux args prev_best.str rolls picks 0 args.iterations prev_best

/-- The list of scored trial mutations a batch draws, in trial order (used to
state which candidate the batch selects). -/
def batch_trials (args : WeaselArgs) (base : List Char)
    (rolls picks : Nat → Nat → Nat) :
    Nat → Nat → Except WeaselErr (List Mutation)
  | _, 0 => .ok []
  | t, n + 1 =>
    match get_mutated_string args.mutation_rate base args.char_set
        (rolls t) (picks t) with
    | .error e => .error e
    | .ok cur_str =>
      (batch_trials args base rolls picks (t + 1) n).map
        (⟨cur_str, check_equal_chars cur_str args.phrase⟩ :: ·)

/-- The selection fold of the batch, abstracted from the randomness: scan the
scored trials in order, replacing the working best exactly on strict score
improvement. -/
def sel (b : Mutation) : List Mutation → Mutation
  | [] => b
  | m :: ms => sel (if m.score > b.score then m else b) ms

/-- The `while prev_best.0 != args.phrase` loop of `run_weasel`
(src/src/weasel.rs lines 35-58), unrolled with fuel.  Returns, in order, the
best candidate adopted (and printed as `Gen n`) by each executed generation,
and how the loop ended.  The loop guard is tested before fuel, so a converged
state never consumes fuel. -/
def run_loop (args : WeaselArgs) (orc : Oracle) :
    Nat → Nat → Mutation → List Mutation × LoopStatus
  | 0, _, prev =>
    if prev.str = args.phrase then ([], .ok) else ([], .outOfFuel prev)
  | fuel + 1, gen_num, prev =>
    if prev.str = args.phrase then ([], .ok)
    else
      match run_batch args prev (orc.roll gen_num) (orc.pick gen_num) with
      | .error e => ([], .err e)
      | .ok cur_best =>
        let rest := run_loop args orc fuel (gen_num + 1) cur_best
        (cur_best :: rest.1, rest.2)

/-- Observable outcome of `run_weasel`: the string of the `Start:` line (none
when the initial generation already failed), the candidates of the `Gen n:`
lines in order, and how the loop ended. -/
structure RunOutput where
  start : Option (List Char)
  gens : List Mutation
  status : LoopStatus
  deriving DecidableEq, Repr

/-- `run_weasel` from src/src/weasel.rs lines 27-61: generate a random initial
candidate of the phrase's length, score it against the phrase, print it as
`Start`, then run the generation loop (here bounded by `fuel`). -/
def run_weasel (args : WeaselArgs) (orc : Oracle) (fuel : Nat) : RunOutput :=
  match gen_rand_string args.phrase.length args.char_set orc.initPick with
  | .error e => ⟨none, [], .err e⟩
  | .ok prev_best_str =>
    let prev_best : Mutation :=
      ⟨prev_best_str, check_equal_chars args.phrase prev_best_str⟩
    let r := run_loop args orc fuel 0 prev_best
    ⟨some prev_best_str, r.1, r.2⟩

/-- A successful batch never returns a working best with a lower score than
the one it started from. -/
theorem run_batch_aux_score_mono (args : WeaselArgs) (base : List Char)
    (rolls picks : Nat → Nat → Nat) :
    ∀ (n t : Nat) (b r : Mutation),
      run_batch_aux args base rolls picks t n b = .ok r → b.score ≤ r.score := by
  intro n
  induction n with
  | zero =>
    intro t b r h
    simp only [run_batch_aux] at h
    cases h
    exact le_refl _
  | succ n ih =>
    intro t b r h
    simp only [run_batch_aux] at h
    split at h
    next => exact absurd h (by simp)
    next cur_str hm =>
      split at h
      next hgt => exact le_trans (le_of_lt hgt) (ih (t + 1) _ r h)
      next => exact ih (t + 1) _ r h

/-- Score monotonicity for a whole batch. -/
theorem run_batch_score_mono (args : WeaselArgs) (prev_best r : Mutation)
    (rolls picks : Nat → Nat → Nat)
    (h : run_batch args prev_best rolls picks = .ok r) :
    prev_best.score ≤ r.score :=
  run_batch_aux_score_mono args prev_best.str rolls picks args.iterations 0
    prev_best r h

/-- Claim C1: along any run of the generation loop, the successive best
candidates (the initial best followed by the best adopted by each generation)
have monotonically non-decreasing scores: consecutive bests never regress. -/
theorem best_score_monotone (args : WeaselArgs) (orc : Oracle)
    (fuel gen_num : Nat) (prev : Mutation) :
    List.Chain' (fun a b => a.score ≤ b.score)
      (prev :: (run_loop args orc fuel gen_num prev).1) := by
  induction fuel generalizing gen_num prev with
  | zero =>
    by_cases h : prev.str = args.phrase <;> simp [run_loop, h]
  | succ fuel ih =>
    by_cases h : prev.str = args.phrase
    · simp [run_loop, h]
    · simp only [run_loop, if_neg h]
      cases hb : run_batch args prev (orc.roll gen_num) (orc.pick gen_num) with
      | error e => simp
      | ok cur_best =>
        simp only [List.chain'_cons]
        exact ⟨run_batch_score_mono args prev cur_best _ _ hb,
          ih (gen_num + 1) cur_best⟩

/-- A loop state whose candidate already equals the phrase exits at once,
producing no generation output, whatever the fuel. -/
theorem run_loop_converged (args : WeaselArgs) (orc : Oracle) :
    ∀ (fuel gen_num : Nat) (prev : Mutation), prev.str = args.phrase →
      run_loop args orc fuel gen_num prev = ([], .ok) := by
  intro fuel
  cases fuel <;> intro g prev h <;> simp [run_loop, h]

/-- Claim C10: when the initial randomly generated candidate already equals
the target phrase, the loop body never runs: the run has the single `Start`
line carrying the phrase, no `Gen` lines, and ends converged (Ok). -/
theorem run_weasel_initial_match (args : WeaselArgs) (orc : Oracle) (fuel : Nat)
    (h : gen_rand_string args.phrase.length args.char_set orc.initPick =
      .ok args.phrase) :
    run_weasel args orc fuel = ⟨some args.phrase, [], .ok⟩ := by
  have hloop := run_loop_converged args orc fuel 0
    ⟨args.phrase, check_equal_chars args.phrase args.phrase⟩ rfl
  simp [run_weasel, h, hloop]

/-- Witness for claim C10 on the one-character phrase A over the set A. -/
theorem run_weasel_initial_match_witness :
    run_weasel ⟨['A'], ['A'], 1, 5⟩
      ⟨fun _ => 0, fun _ _ _ => 0, fun _ _ _ => 0⟩ 3 =
      ⟨some ['A'], [], .ok⟩ :=
  run_weasel_initial_match ⟨['A'], ['A'], 1, 5⟩
    ⟨fun _ => 0, fun _ _ _ => 0, fun _ _ _ => 0⟩ 3 (by rfl)

/-- With a non-empty character set the mutator loop always succeeds. -/
theorem get_mutated_string_aux_ok_of_ne (mutation_rate : Nat)
    (char_set : List Char) (rolls picks : Nat → Nat) (hne : char_set ≠ []) :
    ∀ (cs : List Char) (i : Nat),
      ∃ res, get_mutated_string_aux mutation_rate char_set rolls picks i cs =
        .ok res := by
  intro cs
  induction cs with
  | nil => intro i; exact ⟨[], rfl⟩
  | cons c cs ih =>
    intro i
    obtain ⟨rest, hrest⟩ := ih (i + 1)
    by_cases hroll : rolls i % 101 ≤ mutation_rate
    · obtain ⟨ch, hch, -⟩ := choose_char_nonempty char_set hne (picks i)
      exact ⟨ch :: rest,
        by simp [get_mutated_string_aux, hroll, hch, hrest, Except.map]⟩
    · exact ⟨c :: rest,
        by simp [get_mutated_string_aux, hroll, hrest, Except.map]⟩

/-- With a non-empty character set the mutator always succeeds. -/
theorem get_mutated_string_ok_of_ne (mutation_rate : Nat)
    (base_str char_set : List Char) (rolls picks : Nat → Nat)
    (hne : char_set ≠ []) :
    ∃ res, get_mutated_string mutation_rate base_str char_set rolls picks =
      .ok res :=
  get_mutated_string_aux_ok_of_ne mutation_rate char_set rolls picks hne
    base_str 0

/-- With a non-empty character set every batch succeeds. -/
theorem run_batch_aux_ok_of_ne (args : WeaselArgs) (base : List Char)
    (rolls picks : Nat → Nat → Nat) (hne : args.char_set ≠ []) :
    ∀ (n t : Nat) (b : Mutation),
      ∃ r, run_batch_aux args base rolls picks t n b = .ok r := by
  intro n
  induction n with
  | zero => intro t b; exact ⟨b, rfl⟩
  | succ n ih =>
    intro t b
    obtain ⟨cur_str, hcur⟩ := get_mutated_string_ok_of_ne args.mutation_rate
      base args.char_set (rolls t) (picks t) hne
    obtain ⟨r, hr⟩ := ih (t + 1)
      (if check_equal_chars cur_str args.phrase > b.score
        then ⟨cur_str, check_equal_chars cur_str args.phrase⟩ else b)
    exact ⟨r, by simp [run_batch_aux, hcur, hr]⟩

/-- With a non-empty character set the loop never ends in an error. -/
theorem run_loop_no_err (args : WeaselArgs) (orc : Oracle)
    (hne : args.char_set ≠ []) :
    ∀ (fuel gen_num : Nat) (prev : Mutation) (e : WeaselErr),
      (run_loop args orc fuel gen_num prev).2 ≠ .err e := by
  intro fuel
  induction fuel with
  | zero =>
    intro g prev e
    by_cases h : prev.str = args.phrase <;> simp [run_loop, h]
  | succ fuel ih =>
    intro g prev e
    by_cases h : prev.str = args.phrase
    · simp [run_loop, h]
    · obtain ⟨r, hr⟩ := run_batch_aux_ok_of_ne args prev.str
        (orc.roll g) (orc.pick g) hne args.iterations 0 prev
      have hb : run_batch args prev (orc.roll g) (orc.pick g) = .ok r := hr
      simp only [run_loop, if_neg h, hb]
      exact ih (g + 1) r e

/-- Claim C9: with a non-empty configured character set, `run_weasel` never
returns an error: the initial random generation succeeds (there is a `Start`
line) and no unrolling of the loop ends in a sampling error. -/
theorem run_weasel_no_err (args : WeaselArgs) (orc : Oracle) (fuel : Nat)
    (hne : args.char_set ≠ []) :
    (∃ s, (run_weasel args orc fuel).start = some s) ∧
    ∀ e, (run_weasel args orc fuel).status ≠ .err e := by
  obtain ⟨s, hs, -, -⟩ :=
    gen_rand_string_spec args.phrase.length args.char_set orc.initPick hne
  simp only [run_weasel, hs]
  exact ⟨⟨s, rfl⟩, fun e => run_loop_no_err args orc hne fuel 0 _ e⟩

/-- Witness for claim C9 with phrase AB over the singleton set A. -/
theorem run_weasel_no_err_witness :
    (∃ s, (run_weasel ⟨['A', 'B'], ['A'], 2, 100⟩
      ⟨fun _ => 0, fun _ _ _ => 0, fun _ _ _ => 0⟩ 2).start = some s) ∧
    ∀ e, (run_weasel ⟨['A', 'B'], ['A'], 2, 100⟩
      ⟨fun _ => 0, fun _ _ _ => 0, fun _ _ _ => 0⟩ 2).status ≠ .err e :=
  run_weasel_no_err ⟨['A', 'B'], ['A'], 2, 100⟩
    ⟨fun _ => 0, fun _ _ _ => 0, fun _ _ _ => 0⟩ 2 (by decide)

/-- The selection fold never lowers the working best's score. -/
theorem sel_score_ge : ∀ (ms : List Mutation) (b : Mutation),
    b.score ≤ (sel b ms).score := by
  intro ms
  induction ms with
  | nil => intro b; exact le_refl _
  | cons m ms ih =>
    intro b
    by_cases hgt : m.score > b.score
    · exact le_trans (le_of_lt hgt) (by simpa [sel, hgt] using ih m)
    · simpa [sel, hgt] using ih b

/-- If the selection fold did not strictly improve the score, it never
replaced the working best at all. -/
theorem sel_eq_of_score_le : ∀ (ms : List Mutation) (b : Mutation),
    (sel b ms).score ≤ b.score → sel b ms = b := by
  intro ms
  induction ms with
  | nil => intro b _; rfl
  | cons m ms ih =>
    intro b h
    by_cases hgt : m.score > b.score
    · exfalso
      have h1 : m.score ≤ (sel m ms).score := sel_score_ge ms m
      have h2 : (sel b (m :: ms)).score = (sel m ms).score := by
        simp [sel, hgt]
      omega
    · have h' : sel b (m :: ms) = sel b ms := by simp [sel, hgt]
      rw [h']
      exact ih b (by rw [h'] at h; exact h)

/-- The selection fold returns the working best or one of the trials. -/
theorem sel_mem : ∀ (ms : List Mutation) (b : Mutation),
    sel b ms ∈ b :: ms := by
  intro ms
  induction ms with
  | nil => intro b; simp [sel]
  | cons m ms ih =>
    intro b
    by_cases hgt : m.score > b.score
    · have h := ih m
      rcases List.mem_cons.mp h with h | h
      · simp [sel, hgt, h]
      · simp [sel, hgt, List.mem_cons.mpr (Or.inr (List.mem_cons.mpr (Or.inr h)))]
    · have h := ih b
      rcases List.mem_cons.mp h with h | h
      · simp [sel, hgt, h]
      · simp [sel, hgt, List.mem_cons.mpr (Or.inr (List.mem_cons.mpr (Or.inr h)))]

/-- The selection fold's score dominates the working best and every trial. -/
theorem sel_score_max : ∀ (ms : List Mutation) (b m : Mutation),
    m ∈ b :: ms → m.score ≤ (sel b ms).score := by
  intro ms
  induction ms with
  | nil =>
    intro b m hm
    rcases List.mem_cons.mp hm with h | h
    · subst h; simp [sel]
    · simp at h
  | cons m' ms ih =>
    intro b m hm
    by_cases hgt : m'.score > b.score
    · have hsel : sel b (m' :: ms) = sel m' ms := by simp [sel, hgt]
      rw [hsel]
      rcases List.mem_cons.mp hm with h | h
      · subst h
        exact le_trans (le_of_lt hgt) (ih m' m' (List.mem_cons_self _ _))
      · exact ih m' m h
    · have hsel : sel b (m' :: ms) = sel b ms := by simp [sel, hgt]
      rw [hsel]
      rcases List.mem_cons.mp hm with h | h
      · rw [h]; exact ih b b (List.mem_cons_self _ _)
      · rcases List.mem_cons.mp h with h' | h'
        · subst h'
          exact le_trans (le_of_not_lt hgt) (ih b b (List.mem_cons_self _ _))
        · exact ih b m (List.mem_cons.mpr (Or.inr h'))

/-- The selection fold returns the FIRST candidate (the working best counting
as position zero, then the trials in discovery order) whose score reaches the
selected score: later candidates of merely equal score are ignored. -/
theorem sel_first_best : ∀ (ms : List Mutation) (b : Mutation),
    (b :: ms).find? (fun m => decide ((sel b ms).score ≤ m.score)) =
      some (sel b ms) := by
  intro ms
  induction ms with
  | nil =>
    intro b
    simp [sel, List.find?]
  | cons m ms ih =>
    intro b
    by_cases hgt : m.score > b.score
    · have hsel : sel b (m :: ms) = sel m ms := by simp [sel, hgt]
      rw [hsel]
      have hb : ¬((sel m ms).score ≤ b.score) := by
        have := sel_score_ge ms m
        omega
      rw [List.find?_cons_of_neg _ (by simpa using hb)]
      exact ih m
    · have hsel : sel b (m :: ms) = sel b ms := by simp [sel, hgt]
      rw [hsel]
      by_cases hSb : (sel b ms).score ≤ b.score
      · have hbb : sel b ms = b := sel_eq_of_score_le ms b hSb
        rw [List.find?_cons_of_pos _ (by simpa using hSb), hbb]
      · rw [List.find?_cons_of_neg _ (by simpa using hSb)]
        have hm : ¬((sel b ms).score ≤ m.score) := by
          have h1 : m.score ≤ b.score := le_of_not_lt hgt
          omega
        rw [List.find?_cons_of_neg _ (by simpa using hm)]
        have h := ih b
        rw [List.find?_cons_of_neg _ (by simpa using hSb)] at h
        exact h

/-- The batch fold computes exactly the selection fold over the scored trial
list it draws. -/
theorem run_batch_aux_eq_sel (args : WeaselArgs) (base : List Char)
    (rolls picks : Nat → Nat → Nat) :
    ∀ (n t : Nat) (b : Mutation),
      run_batch_aux args base rolls picks t n b =
        (batch_trials args base rolls picks t n).map (fun ms => sel b ms) := by
  intro n
  induction n with
  | zero => intro t b; rfl
  | succ n ih =>
    intro t b
    cases hm : get_mutated_string args.mutation_rate base args.char_set
        (rolls t) (picks t) with
    | error e => simp [run_batch_aux, batch_trials, hm, Except.map]
    | ok cur_str =>
      simp only [run_batch_aux, batch_trials, hm]
      rw [ih (t + 1)]
      cases hbt : batch_trials args base rolls picks (t + 1) n with
      | error e => simp [hbt, Except.map]
      | ok ms => simp [hbt, Except.map, sel]

/-- Claim C2: a generation's batch replaces the working best only on strictly
greater score, so the batch returns the selection fold of its trials: the
result dominates the score of the initial working best and of every trial,
and it is the FIRST candidate (the working best, then the trials in discovery
order) attaining that score — a later trial of merely equal score never
replaces it. -/
theorem batch_first_best_wins (args : WeaselArgs) (prev_best : Mutation)
    (rolls picks : Nat → Nat → Nat) (ms : List Mutation)
    (h : batch_trials args prev_best.str rolls picks 0 args.iterations =
      .ok ms) :
    run_batch args prev_best rolls picks = .ok (sel prev_best ms) ∧
    (∀ m ∈ prev_best :: ms, m.score ≤ (sel prev_best ms).score) ∧
    (prev_best :: ms).find?
      (fun m => decide ((sel prev_best ms).score ≤ m.score)) =
      some (sel prev_best ms) := by
  refine ⟨?_, fun m hm => sel_score_max ms prev_best m hm,
    sel_first_best ms prev_best⟩
  have heq := run_batch_aux_eq_sel args prev_best.str rolls picks
    args.iterations 0 prev_best
  rw [h] at heq
  exact heq

/-- Witness for claim C2: two trials tie at score 1; the first one wins. -/
theorem batch_first_best_wins_witness :
    run_batch ⟨['A', 'B'], ['A', 'B'], 2, 100⟩ ⟨['B', 'A'], 0⟩
      (fun _ _ => 0) (fun _ _ => 0) =
      .ok (sel ⟨['B', 'A'], 0⟩ [⟨['A', 'A'], 1⟩, ⟨['A', 'A'], 1⟩]) ∧
    (∀ m ∈ (⟨['B', 'A'], 0⟩ : Mutation) :: [⟨['A', 'A'], 1⟩, ⟨['A', 'A'], 1⟩],
      m.score ≤ (sel ⟨['B', 'A'], 0⟩ [⟨['A', 'A'], 1⟩, ⟨['A', 'A'], 1⟩]).score) ∧
    ((⟨['B', 'A'], 0⟩ : Mutation) :: [⟨['A', 'A'], 1⟩, ⟨['A', 'A'], 1⟩]).find?
      (fun m => decide
        ((sel ⟨['B', 'A'], 0⟩ [⟨['A', 'A'], 1⟩, ⟨['A', 'A'], 1⟩]).score ≤
          m.score)) =
      some (sel ⟨['B', 'A'], 0⟩ [⟨['A', 'A'], 1⟩, ⟨['A', 'A'], 1⟩]) :=
  batch_first_best_wins ⟨['A', 'B'], ['A', 'B'], 2, 100⟩ ⟨['B', 'A'], 0⟩
    (fun _ _ => 0) (fun _ _ => 0) [⟨['A', 'A'], 1⟩, ⟨['A', 'A'], 1⟩] (by rfl)

/-- The scorer never exceeds either sequence's length. -/
theorem check_equal_chars_le (a b : List Char) :
    check_equal_chars a b ≤ a.length ∧ check_equal_chars a b ≤ b.length := by
  have h1 : check_equal_chars a b ≤ (a.zip b).length :=
    List.length_filter_le _ _
  have h2 : (a.zip b).length = min a.length b.length := List.length_zip a b
  omega

/-- On equal-length sequences, a full score means the sequences are equal. -/
theorem check_equal_chars_full : ∀ (a b : List Char), a.length = b.length →
    (check_equal_chars a b = a.length ↔ a = b) := by
  intro a
  induction a with
  | nil =>
    intro b h
    cases b with
    | nil => simp [check_equal_chars]
    | cons y ys => simp at h
  | cons x xs ih =>
    intro b h
    cases b with
    | nil => simp at h
    | cons y ys =>
      have hlen : xs.length = ys.length := by simpa using h
      by_cases hxy : x = y
      · have hstep : check_equal_chars (x :: xs) (y :: ys) =
            check_equal_chars xs ys + 1 := by
          simp [check_equal_chars, List.filter_cons, hxy]
        rw [hstep, List.length_cons]
        constructor
        · intro hh
          have hxs : check_equal_chars xs ys = xs.length := by omega
          simp [hxy, (ih ys hlen).mp hxs]
        · intro hh
          have hxs : xs = ys := ((List.cons.injEq x xs y ys).mp hh).2
          have := (ih ys hlen).mpr hxs
          omega
      · have hstep : check_equal_chars (x :: xs) (y :: ys) =
            check_equal_chars xs ys := by
          simp [check_equal_chars, List.filter_cons, hxy]
        rw [hstep, List.length_cons]
        have hle := (check_equal_chars_le xs ys).1
        constructor
        · intro hh; omega
        · intro hh
          exact absurd ((List.cons.injEq x xs y ys).mp hh).1 hxy

/-- Scoring a sequence against itself gives its full length. -/
theorem check_equal_chars_self (a : List Char) :
    check_equal_chars a a = a.length :=
  (check_equal_chars_full a a rfl).mpr rfl

/-- Every scored trial of a batch carries the score of its own string against
the phrase, and has the base string's length. -/
theorem batch_trials_mem (args : WeaselArgs) (base : List Char)
    (rolls picks : Nat → Nat → Nat) :
    ∀ (n t : Nat) (ms : List Mutation),
      batch_trials args base rolls picks t n = .ok ms →
      ∀ m ∈ ms, m.score = check_equal_chars m.str args.phrase ∧
        m.str.length = base.length := by
  intro n
  induction n with
  | zero =>
    intro t ms h m hm
    simp only [batch_trials] at h
    cases h
    simp at hm
  | succ n ih =>
    intro t ms h m hm
    simp only [batch_trials] at h
    split at h
    next => exact absurd h (by simp)
    next cur_str hg =>
      obtain ⟨rest, hrest, rfl⟩ := (except_map_ok _ _ _).mp h
      rcases List.mem_cons.mp hm with hm0 | hmr
      · subst hm0
        exact ⟨rfl, (get_mutated_string_spec args.mutation_rate base
          args.char_set (rolls t) (picks t) cur_str hg).1⟩
      · exact ih (t + 1) rest hrest m hmr

/-- Claim C3: when the loop state is consistent (candidate of the phrase's
length, carrying its own score, not yet converged) and some trial of the
generation's batch produces exactly the target phrase, the candidate adopted
at the end of that generation is the target phrase, that generation's printed
line carries the target phrase, and the loop converges with no further
output. -/
theorem target_trial_converges (args : WeaselArgs) (orc : Oracle)
    (fuel gen_num : Nat) (prev : Mutation) (ms : List Mutation)
    (hlen : prev.str.length = args.phrase.length)
    (hscore : prev.score = check_equal_chars args.phrase prev.str)
    (hneq : prev.str ≠ args.phrase)
    (hms : batch_trials args prev.str (orc.roll gen_num) (orc.pick gen_num) 0
      args.iterations = .ok ms)
    (hhit : ∃ m ∈ ms, m.str = args.phrase) :
    ∃ r, run_loop args orc (fuel + 1) gen_num prev = ([r], .ok) ∧
      r.str = args.phrase := by
  have hprevle : check_equal_chars args.phrase prev.str ≤ args.phrase.length :=
    (check_equal_chars_le _ _).1
  have hprevne : check_equal_chars args.phrase prev.str ≠ args.phrase.length := by
    intro hfull
    exact hneq ((check_equal_chars_full args.phrase prev.str hlen.symm).mp
      hfull).symm
  have hprevlt : prev.score < args.phrase.length := by omega
  obtain ⟨m₀, hm₀, hm₀str⟩ := hhit
  have hmem := batch_trials_mem args prev.str (orc.roll gen_num)
    (orc.pick gen_num) args.iterations 0 ms hms
  have hm₀score : m₀.score = args.phrase.length := by
    have h1 := (hmem m₀ hm₀).1
    rw [hm₀str, check_equal_chars_self] at h1
    exact h1
  have hrs : args.phrase.length ≤ (sel prev ms).score :=
    hm₀score ▸ sel_score_max ms prev m₀ (List.mem_cons.mpr (Or.inr hm₀))
  have hrne : sel prev ms ≠ prev := by
    intro he
    rw [he] at hrs
    omega
  have hrmem : sel prev ms ∈ ms := by
    rcases List.mem_cons.mp (sel_mem ms prev) with h | h
    · exact absurd h hrne
    · exact h
  have hrprops := hmem (sel prev ms) hrmem
  have hrlen : (sel prev ms).str.length = args.phrase.length := by
    rw [hrprops.2, hlen]
  have hrstr : (sel prev ms).str = args.phrase := by
    have hle : check_equal_chars (sel prev ms).str args.phrase ≤
        (sel prev ms).str.length := (check_equal_chars_le _ _).1
    have h1 := hrprops.1
    have heq : check_equal_chars (sel prev ms).str args.phrase =
        (sel prev ms).str.length := by omega
    exact (check_equal_chars_full (sel prev ms).str args.phrase hrlen).mp heq
  have hbatch : run_batch args prev (orc.roll gen_num) (orc.pick gen_num) =
      .ok (sel prev ms) := by
    have heq := run_batch_aux_eq_sel args prev.str (orc.roll gen_num)
      (orc.pick gen_num) args.iterations 0 prev
    rw [hms] at heq
    exact heq
  refine ⟨sel prev ms, ?_, hrstr⟩
  simp only [run_loop, if_neg hneq, hbatch]
  simp [run_loop_converged args orc fuel (gen_num + 1) (sel prev ms) hrstr]

/-- Witness for claim C3: phrase AB, one trial that mutates AA into AB. -/
theorem target_trial_converges_witness :
    ∃ r, run_loop ⟨['A', 'B'], ['A', 'B'], 1, 100⟩
      ⟨fun _ => 0, fun _ _ _ => 0, fun _ _ p => p⟩ (0 + 1) 0 ⟨['A', 'A'], 1⟩ =
      ([r], .ok) ∧ r.str = (⟨['A', 'B'], ['A', 'B'], 1, 100⟩ : WeaselArgs).phrase :=
  target_trial_converges ⟨['A', 'B'], ['A', 'B'], 1, 100⟩
    ⟨fun _ => 0, fun _ _ _ => 0, fun _ _ p => p⟩ 0 0 ⟨['A', 'A'], 1⟩
    [⟨['A', 'B'], 2⟩] (by decide) (by decide) (by decide) (by rfl)
    ⟨⟨['A', 'B'], 2⟩, by simp, rfl⟩
